import Mathlib

/-!
Verification of the libdragon RSP command-queue (rspq) engine against its
specification.

The CPU-side command writer is implemented by the macros
`_rspq_write_prolog`, `_rspq_write_arg`, `_rspq_write0`, `_rspq_write1` and
`_rspq_write_epilog` in src/include/rspq.h (lines 318-346).  Those macros are
embedded here directly: memory is a word-addressed map per buffer, the write
cursor (`rspq_cur_pointer`) and sentinel (`rspq_cur_sentinel`) are word
indices, and a 32-bit store truncates its value modulo 2^32.

Parts of the engine implemented in rspq.c (buffer switching, syncpoints,
blocks, the high-priority channel) are not among the provided sources; those
are modelled from the specification text and are marked as such in their doc
comments.
-/

namespace Rspq

/-- A 32-bit word value (kept as a natural number; stores truncate mod 2^32). -/
abbrev Word := Nat

/-- Modulus of a 32-bit store (uint32_t). -/
def UINT32_MOD : Nat := 2 ^ 32

/-- RSPQ_MAX_COMMAND_SIZE from rspq.h line 149: maximum size of a command in
32-bit words. -/
def RSPQ_MAX_COMMAND_SIZE : Nat := 16

/-- A single 32-bit store into a word-addressed memory: the value is truncated
to 32 bits (the buffers hold uint32_t). -/
def setWord (m : Nat → Word) (i : Nat) (v : Word) : Nat → Word :=
  fun j => if j = i then v % UINT32_MOD else m j

/-- Apply a list of stores in program order (left to right). -/
def applyStores (m : Nat → Word) : List (Nat × Word) → (Nat → Word)
  | [] => m
  | (i, v) :: rest => applyStores (setWord m i v) rest

/-- The sequence of stores performed by repeated uses of `_rspq_write_arg`
(rspq.h line 327-328): each payload word is stored through a pointer that is
then post-incremented, so the k-th payload word goes to address ptr+k. -/
def writeArgStores (ptr : Nat) : List Word → List (Nat × Word)
  | [] => []
  | a :: rest => (ptr, a) :: writeArgStores (ptr + 1) rest

/-- The full store sequence of `_rspq_write1` (rspq.h lines 337-343): first
all variadic payload words through the prolog pointer (which starts at
rspq_cur_pointer+1), then the header word ((cmd_id<<24)|arg0) at
rspq_cur_pointer[0]. -/
def writeStoreList (cur cmd_id arg0 : Nat) (args : List Word) : List (Nat × Word) :=
  writeArgStores (cur + 1) args ++ [(cur, (cmd_id <<< 24) ||| arg0)]

/-- One invocation of the rspq_write macro: the 8-bit command id and the
payload arguments.  An empty payload corresponds to rspq_write(cmd_id), which
the macro dispatches to `_rspq_write0`; a payload a0 :: rest corresponds to
rspq_write(cmd_id, a0, rest...), dispatched to `_rspq_write1`. -/
structure RspqCmd where
  cmd_id : Nat
  payload : List Word

/-- The 32-bit words an invocation publishes into the queue: the header word
(cmd_id shifted into the MSB, or-ed with the first payload argument when
present) followed by the remaining payload words, each truncated to 32 bits
by the store. -/
def cmdWords (c : RspqCmd) : List Word :=
  match c.payload with
  | [] => [(c.cmd_id <<< 24) % UINT32_MOD]
  | a0 :: rest => ((c.cmd_id <<< 24) ||| a0) % UINT32_MOD :: rest.map (· % UINT32_MOD)

/-- The store sequence of one rspq_write invocation, in program order:
`_rspq_write0` performs the single header store, `_rspq_write1` performs the
payload stores then the header store. -/
def cmdStoreList (cur : Nat) (c : RspqCmd) : List (Nat × Word) :=
  match c.payload with
  | [] => [(cur, c.cmd_id <<< 24)]
  | a0 :: rest => writeStoreList cur c.cmd_id a0 rest

/-- Producer-side state of the ring-buffer writer: the two double-buffered
memory regions (indexed by a buffer flag), the active buffer, the write
cursor `rspq_cur_pointer` and the sentinel `rspq_cur_sentinel` (both as word
indices into the active buffer), and an instrumentation counter of how many
times `rspq_next_buffer` has run. -/
structure RspqState where
  mem : Bool → Nat → Word
  buf : Bool
  cur : Nat
  sentinel : Nat
  switches : Nat

/-- Replace the contents of one buffer. -/
def updateActive (mem : Bool → Nat → Word) (b : Bool) (m : Nat → Word) :
    Bool → Nat → Word :=
  fun b' => if b' = b then m else mem b'

/-- Modelled from the spec: the jump control command word (overlay id 0 is
reserved for engine control) that redirects the consumer to buffer b.
rspq.c, which encodes the actual jump command, is not among the provided
sources. -/
def rspq_jump_word (b : Bool) : Word := (4 <<< 24) ||| (if b then 1 else 0)

/-- Modelled from the spec: `rspq_next_buffer` (implemented in rspq.c, which
is not among the provided sources) appends a jump control command at the
current write position, redirecting the consumer to the alternate buffer once
it finishes the current one, and switches the writer to the alternate buffer,
resetting the write cursor to its start. -/
def rspq_next_buffer (s : RspqState) : RspqState :=
  { mem := updateActive s.mem s.buf
      (setWord (s.mem s.buf) s.cur (rspq_jump_word (!s.buf)))
    buf := !s.buf
    cur := 0
    sentinel := s.sentinel
    switches := s.switches + 1 }

/-- `_rspq_write_epilog` (rspq.h lines 324-325): if the write cursor has
passed the sentinel, switch to the alternate buffer; otherwise do nothing. -/
def rspq_write_epilog (s : RspqState) : RspqState :=
  if s.sentinel < s.cur then rspq_next_buffer s else s

/-- `_rspq_write0` (rspq.h lines 330-335): store (cmd_id<<24) at the cursor,
advance the cursor by one word, then run the epilog. -/
def rspq_write0 (s : RspqState) (cmd_id : Nat) : RspqState :=
  rspq_write_epilog
    { s with
      mem := updateActive s.mem s.buf
        (applyStores (s.mem s.buf) [(s.cur, cmd_id <<< 24)])
      cur := s.cur + 1 }

/-- `_rspq_write1` (rspq.h lines 337-343): store the variadic payload words
at cursor+1, cursor+2, ..., then the header word ((cmd_id<<24)|arg0) at the
cursor, advance the cursor by 1 + (number of variadic words), then run the
epilog. -/
def rspq_write1 (s : RspqState) (cmd_id arg0 : Nat) (args : List Word) : RspqState :=
  rspq_write_epilog
    { s with
      mem := updateActive s.mem s.buf
        (applyStores (s.mem s.buf) (writeStoreList s.cur cmd_id arg0 args))
      cur := s.cur + 1 + args.length }

/-- The rspq_write macro (rspq.h lines 345-346): dispatch on whether the
invocation has payload arguments. -/
def rspq_write (s : RspqState) (c : RspqCmd) : RspqState :=
  match c.payload with
  | [] => rspq_write0 s c.cmd_id
  | a0 :: rest => rspq_write1 s c.cmd_id a0 rest

/-- A sequence of rspq_write invocations, in invocation order. -/
def rspq_write_seq (s : RspqState) : List RspqCmd → RspqState
  | [] => s
  | c :: cs => rspq_write_seq (rspq_write s c) cs

/-- Total number of 32-bit words published by a sequence of invocations. -/
def totalWords (cs : List RspqCmd) : Nat :=
  (cs.map (fun c => (cmdWords c).length)).sum

/-- Concatenation of the words published by a sequence of invocations. -/
def seqWords (cs : List RspqCmd) : List Word :=
  (cs.map cmdWords).flatten

/-- Modelled from the spec: engine-level producer state for block recording
(rspq.c, which implements rspq_block_begin / rspq_block_end / rspq_flush, is
not among the provided sources).  While a block is being recorded,
`block_buf` holds the words written so far into the block's private buffer;
`wake` counts the consumer wake notifications issued by flush. -/
structure EngineState where
  rb : RspqState
  block_buf : Option (List Word)
  wake : Nat

/-- Modelled from the spec: `rspq_flush` wakes the consumer up to the most
recently published cursor position, but is a no-op while a block is being
recorded (rspq.h lines 400-404; body in rspq.c, not among the sources). -/
def rspq_flush (e : EngineState) : EngineState :=
  match e.block_buf with
  | some _ => e
  | none => { e with wake := e.wake + 1 }

/-- Modelled from the spec: a write at engine level is redirected into the
block's private buffer while a block is being recorded, and otherwise goes
to the live ring buffer. -/
def engine_write (e : EngineState) (c : RspqCmd) : EngineState :=
  match e.block_buf with
  | some b => { e with block_buf := some (b ++ cmdWords c) }
  | none => { e with rb := rspq_write e.rb c }

/-- Modelled from the spec: syncpoint state.  `count` is the producer-side
counter of created syncpoints; `done` is the consumer's last-acknowledged
counter, updated by the marker command's side effect (rspq.c is not among
the provided sources). -/
structure SpState where
  count : Nat
  done : Nat
deriving DecidableEq

/-- Events of the syncpoint protocol: the producer creates a syncpoint, or
the consumer executes the next pending marker command. -/
inductive SpEvent where
  | create : SpEvent
  | consume : SpEvent
deriving DecidableEq

/-- Modelled from the spec: one step of the syncpoint protocol.  Creation
bumps the producer counter; the consumer executing the next marker bumps the
acknowledged counter (markers are executed in stream order, and only markers
that were actually created can be executed). -/
def spStep (s : SpState) : SpEvent → SpState
  | .create => { s with count := s.count + 1 }
  | .consume => if s.done < s.count then { s with done := s.done + 1 } else s

/-- Run a list of syncpoint-protocol events in order. -/
def spRun (s : SpState) : List SpEvent → SpState
  | [] => s
  | e :: es => spRun (spStep s e) es

/-- Modelled from the spec: `rspq_syncpoint` appends a marker carrying a
freshly allocated counter value and returns that value as the handle. -/
def rspq_syncpoint (s : SpState) : Nat × SpState :=
  (s.count + 1, { s with count := s.count + 1 })

/-- Modelled from the spec: `rspq_check_syncpoint` is an O(1) non-blocking
comparison of the handle against the consumer's last-acknowledged counter. -/
def rspq_check_syncpoint (s : SpState) (id : Nat) : Bool :=
  id ≤ s.done

/-- Modelled from the spec: `rspq_wait_syncpoint` re-checks the syncpoint on
each wake signal from the consumer until the check passes; if the check
already passes it returns at once.  The schedule of consumer progress
between wakes is given as a list; the result counts the blocking waits
performed (none when the syncpoint was already reached), or is none when the
schedule is exhausted without the syncpoint being reached. -/
def rspq_wait_syncpoint : SpState → Nat → List (List SpEvent) → Option (Nat × SpState)
  | s, id, [] => if rspq_check_syncpoint s id then some (0, s) else none
  | s, id, w :: ws =>
    if rspq_check_syncpoint s id then some (0, s)
    else (rspq_wait_syncpoint (spRun s w) id ws).map (fun p => (p.1 + 1, p.2))

/-- Modelled from the spec: state of the two command streams as seen by the
consumer scheduler.  `hq` and `nq` are the pending high-priority and normal
commands in publication order; `obs` is the sequence of commands the
consumer has executed so far. -/
structure HpState where
  hq : List Nat
  nq : List Nat
  obs : List Nat
deriving DecidableEq

/-- Events of the two-queue protocol: the producer publishes a command to
the normal or the high-priority stream, or the consumer finishes its current
command and executes the next one. -/
inductive HpEvent where
  | enqNormal : Nat → HpEvent
  | enqHigh : Nat → HpEvent
  | consume : HpEvent
deriving DecidableEq

/-- Modelled from the spec: one step of the consumer scheduler.  At a command
boundary the consumer always drains the high-priority queue first; only when
it is empty does it resume the normal queue at the preemption point. -/
def hpStep (s : HpState) : HpEvent → HpState
  | .enqNormal c => { s with nq := s.nq ++ [c] }
  | .enqHigh c => { s with hq := s.hq ++ [c] }
  | .consume =>
    match s.hq with
    | x :: rest => { s with hq := rest, obs := s.obs ++ [x] }
    | [] =>
      match s.nq with
      | y :: rest => { s with nq := rest, obs := s.obs ++ [y] }
      | [] => s

/-- Run a list of two-queue protocol events in order. -/
def hpRun (s : HpState) : List HpEvent → HpState
  | [] => s
  | e :: es => hpRun (hpStep s e) es

/-- The command x written into the high-priority segment has been observed
before the normal-queue command z: the observation sequence splits at an
occurrence of z with x somewhere before it. -/
def HpResolved (x z : Nat) (s : HpState) : Prop :=
  ∃ l1 l2, s.obs = l1 ++ z :: l2 ∧ x ∈ l1

/-- Invariant of the two-queue scheduler relating a high-priority command x
and a pending normal command z: z has not been observed yet and is still
pending on the normal queue (and never entered the high-priority queue),
while x is either still pending on the high-priority queue or already
observed. -/
def HpInv (x z : Nat) (s : HpState) : Prop :=
  z ∉ s.obs ∧ z ∉ s.hq ∧ z ∈ s.nq ∧ (x ∈ s.hq ∨ x ∈ s.obs)

/-- A concrete all-zero double buffer, used for witness states. -/
def memZero : Bool → Nat → Word := fun _ _ => 0

/-- A concrete all-zero single memory, used by the witnesses. -/
def memZeroLine : Nat → Word := fun _ => 0

/-- A concrete writer state used by the witnesses. -/
def sampleState : RspqState :=
  { mem := memZero, buf := false, cur := 0, sentinel := 100, switches := 0 }

/-- A concrete three-word command (overlay 3, index 10) used by the
witnesses. -/
def sampleCmd : RspqCmd := { cmd_id := 58, payload := [5, 7, 9] }

/-- A concrete writer state whose sentinel is already at the cursor, so the
next write triggers a buffer switch; used by the witnesses. -/
def switchState : RspqState :=
  { mem := memZero, buf := false, cur := 0, sentinel := 0, switches := 0 }

/-- A concrete engine state currently recording a block; used by the
witnesses. -/
def sampleEngine : EngineState :=
  { rb := sampleState, block_buf := some [1, 2], wake := 3 }

/-- A concrete initial syncpoint state; used by the witnesses. -/
def sampleSp : SpState := { count := 0, done := 0 }

/-- A concrete two-queue state with a pending high-priority segment and a
pending normal command; used by the witnesses. -/
def sampleHp : HpState := { hq := [10, 11], nq := [20], obs := [] }

theorem applyStores_append (m : Nat → Word) (l1 l2 : List (Nat × Word)) :
    applyStores m (l1 ++ l2) = applyStores (applyStores m l1) l2 := by
  induction l1 generalizing m with
  | nil => rfl
  | cons p rest ih => cases p; simp [applyStores, ih]

theorem applyStores_not_mem (m : Nat → Word) (l : List (Nat × Word)) (j : Nat)
    (h : ∀ p ∈ l, p.1 ≠ j) : applyStores m l j = m j := by
  induction l generalizing m with
  | nil => rfl
  | cons p rest ih =>
    cases p with
    | mk i v =>
      simp only [applyStores]
      rw [ih]
      · simp only [setWord]
        have hne : i ≠ j := by
          have := h (i, v) (by simp)
          simpa using this
        simp [Ne.symm hne]
      · intro q hq
        exact h q (by simp [hq])

theorem writeArgStores_length (args : List Word) :
    ∀ ptr : Nat, (writeArgStores ptr args).length = args.length := by
  induction args with
  | nil => intro ptr; rfl
  | cons a rest ih => intro ptr; simp [writeArgStores, ih]

theorem writeArgStores_mem_addr (args : List Word) :
    ∀ (ptr : Nat) (p : Nat × Word), p ∈ writeArgStores ptr args →
      ptr ≤ p.1 ∧ p.1 < ptr + args.length := by
  induction args with
  | nil => intro ptr p hp; simp [writeArgStores] at hp
  | cons a rest ih =>
    intro ptr p hp
    simp only [writeArgStores, List.mem_cons] at hp
    rcases hp with h | h
    · subst h
      refine ⟨Nat.le_refl _, ?_⟩
      show ptr < ptr + (a :: rest).length
      simp only [List.length_cons]
      omega
    · have := ih (ptr + 1) p h
      simp only [List.length_cons]
      omega

theorem applyStores_writeArgStores (args : List Word) :
    ∀ (m : Nat → Word) (ptr j : Nat),
      applyStores m (writeArgStores ptr args) j =
        if ptr ≤ j ∧ j < ptr + args.length
        then args.getD (j - ptr) 0 % UINT32_MOD else m j := by
  induction args with
  | nil =>
    intro m ptr j
    simp only [writeArgStores, applyStores, List.length_nil]
    split
    · omega
    · rfl
  | cons a rest ih =>
    intro m ptr j
    simp only [writeArgStores, applyStores]
    rw [ih]
    by_cases hj : j = ptr
    · subst hj
      have hc1 : ¬ (j + 1 ≤ j ∧ j < j + 1 + rest.length) := by omega
      have hc2 : j ≤ j ∧ j < j + (a :: rest).length := by
        simp only [List.length_cons]; omega
      rw [if_neg hc1, if_pos hc2]
      simp [setWord]
    · by_cases hr : ptr + 1 ≤ j ∧ j < ptr + 1 + rest.length
      · have hc2 : ptr ≤ j ∧ j < ptr + (a :: rest).length := by
          simp only [List.length_cons]; omega
        rw [if_pos hr, if_pos hc2]
        have hidx : j - ptr = (j - (ptr + 1)) + 1 := by omega
        rw [hidx, List.getD_cons_succ]
      · have hc2 : ¬ (ptr ≤ j ∧ j < ptr + (a :: rest).length) := by
          simp only [List.length_cons]; omega
        rw [if_neg hr, if_neg hc2]
        simp [setWord, hj]

theorem getD_map_mod (l : List Word) (i : Nat) (h : i < l.length) :
    (l.map (· % UINT32_MOD)).getD i 0 = l.getD i 0 % UINT32_MOD := by
  induction l generalizing i with
  | nil => simp at h
  | cons a rest ih =>
    cases i with
    | zero => simp
    | succ k =>
      simp only [List.map_cons, List.getD_cons_succ]
      exact ih k (by simpa using h)

theorem applyStores_writeStoreList (m : Nat → Word) (cur cmd_id arg0 : Nat)
    (args : List Word) (j : Nat) :
    applyStores m (writeStoreList cur cmd_id arg0 args) j =
      if j = cur then ((cmd_id <<< 24) ||| arg0) % UINT32_MOD
      else if cur + 1 ≤ j ∧ j < cur + 1 + args.length
      then args.getD (j - (cur + 1)) 0 % UINT32_MOD
      else m j := by
  unfold writeStoreList
  rw [applyStores_append]
  simp only [applyStores, setWord]
  rw [applyStores_writeArgStores]

theorem cmdWords_length (c : RspqCmd) :
    (cmdWords c).length = max 1 c.payload.length := by
  cases hc : c.payload with
  | nil => simp [cmdWords, hc]
  | cons a0 rest => simp [cmdWords, hc]

theorem cmdStoreList_length (cur : Nat) (c : RspqCmd) :
    (cmdStoreList cur c).length = (cmdWords c).length := by
  cases hc : c.payload with
  | nil => simp [cmdStoreList, cmdWords, hc]
  | cons a0 rest =>
    simp [cmdStoreList, cmdWords, hc, writeStoreList, writeArgStores_length]

theorem cmdStoreList_mem_addr (cur : Nat) (c : RspqCmd) (p : Nat × Word)
    (hp : p ∈ cmdStoreList cur c) :
    cur ≤ p.1 ∧ p.1 < cur + (cmdWords c).length := by
  cases hc : c.payload with
  | nil =>
    simp [cmdStoreList, hc] at hp
    simp [cmdWords, hc, hp]
  | cons a0 rest =>
    simp only [cmdStoreList, hc, writeStoreList, List.mem_append,
      List.mem_singleton] at hp
    have hlen : (cmdWords c).length = rest.length + 1 := by
      simp [cmdWords, hc]
    rcases hp with h | h
    · have := writeArgStores_mem_addr rest (cur + 1) p h
      omega
    · subst h
      simp only [hlen]
      omega

theorem applyStores_cmdStoreList (m : Nat → Word) (cur : Nat) (c : RspqCmd)
    (j : Nat) :
    applyStores m (cmdStoreList cur c) j =
      if cur ≤ j ∧ j < cur + (cmdWords c).length
      then (cmdWords c).getD (j - cur) 0
      else m j := by
  cases hc : c.payload with
  | nil =>
    simp only [cmdStoreList, hc, applyStores, setWord, cmdWords, List.length_cons,
      List.length_nil]
    by_cases hj : j = cur
    · subst hj
      have : j ≤ j ∧ j < j + (0 + 1) := by omega
      simp [this]
    · have : ¬ (cur ≤ j ∧ j < cur + (0 + 1)) := by omega
      simp [hj, this]
  | cons a0 rest =>
    simp only [cmdStoreList, hc]
    rw [applyStores_writeStoreList]
    have hlen : (cmdWords c).length = rest.length + 1 := by simp [cmdWords, hc]
    by_cases hj : j = cur
    · subst hj
      have hcond : j ≤ j ∧ j < j + (cmdWords c).length := by omega
      simp only [if_pos rfl, if_pos hcond]
      simp [cmdWords, hc]
    · by_cases hr : cur + 1 ≤ j ∧ j < cur + 1 + rest.length
      · have hcond : cur ≤ j ∧ j < cur + (cmdWords c).length := by omega
        rw [if_neg hj, if_pos hr, if_pos hcond]
        have hidx : j - cur = (j - (cur + 1)) + 1 := by omega
        simp only [cmdWords, hc, hidx, List.getD_cons_succ]
        exact (getD_map_mod rest (j - (cur + 1)) (by omega)).symm
      · have hcond : ¬ (cur ≤ j ∧ j < cur + (cmdWords c).length) := by omega
        rw [if_neg hj, if_neg hr, if_neg hcond]

theorem rspq_write_eq (s : RspqState) (c : RspqCmd) :
    rspq_write s c =
      rspq_write_epilog
        { s with
          mem := updateActive s.mem s.buf
            (applyStores (s.mem s.buf) (cmdStoreList s.cur c))
          cur := s.cur + (cmdWords c).length } := by
  cases hc : c.payload with
  | nil =>
    simp [rspq_write, rspq_write0, cmdStoreList, cmdWords, hc]
  | cons a0 rest =>
    simp only [rspq_write, rspq_write1, cmdStoreList, cmdWords, hc]
    have : s.cur + 1 + rest.length = s.cur + (rest.length + 1) := by omega
    simp [this]

theorem rspq_write_no_switch (s : RspqState) (c : RspqCmd)
    (h : s.cur + (cmdWords c).length ≤ s.sentinel) :
    (rspq_write s c).buf = s.buf ∧
    (rspq_write s c).cur = s.cur + (cmdWords c).length ∧
    (rspq_write s c).sentinel = s.sentinel ∧
    (rspq_write s c).switches = s.switches ∧
    (∀ b j, (rspq_write s c).mem b j =
      if b = s.buf ∧ s.cur ≤ j ∧ j < s.cur + (cmdWords c).length
      then (cmdWords c).getD (j - s.cur) 0
      else s.mem b j) := by
  rw [rspq_write_eq]
  rw [rspq_write_epilog, if_neg (by simp; omega)]
  refine ⟨rfl, rfl, rfl, rfl, ?_⟩
  intro b j
  simp only [updateActive]
  by_cases hb : b = s.buf
  · subst hb
    rw [if_pos rfl, applyStores_cmdStoreList]
    by_cases hj : s.cur ≤ j ∧ j < s.cur + (cmdWords c).length
    · rw [if_pos hj, if_pos ⟨rfl, hj⟩]
    · rw [if_neg hj, if_neg (by simp [hj])]
  · rw [if_neg hb, if_neg (by simp [hb])]

theorem rspq_write_switch (s : RspqState) (c : RspqCmd)
    (h : s.sentinel < s.cur + (cmdWords c).length) :
    (rspq_write s c).buf = !s.buf ∧
    (rspq_write s c).cur = 0 ∧
    (rspq_write s c).sentinel = s.sentinel ∧
    (rspq_write s c).switches = s.switches + 1 ∧
    (rspq_write s c).mem s.buf (s.cur + (cmdWords c).length) =
      rspq_jump_word (!s.buf) % UINT32_MOD ∧
    (∀ j, j < s.cur → (rspq_write s c).mem s.buf j = s.mem s.buf j) := by
  rw [rspq_write_eq]
  rw [rspq_write_epilog, if_pos (by exact h)]
  simp only [rspq_next_buffer, updateActive]
  refine ⟨trivial, trivial, trivial, trivial, ?_, ?_⟩
  · simp [setWord]
  · intro j hj
    simp only [if_true, setWord]
    rw [if_neg (by omega), applyStores_cmdStoreList, if_neg (by omega)]

theorem seqWords_cons (c : RspqCmd) (cs : List RspqCmd) :
    seqWords (c :: cs) = cmdWords c ++ seqWords cs := by
  simp [seqWords]

theorem totalWords_cons (c : RspqCmd) (cs : List RspqCmd) :
    totalWords (c :: cs) = (cmdWords c).length + totalWords cs := by
  simp [totalWords]

theorem seqWords_length (cs : List RspqCmd) :
    (seqWords cs).length = totalWords cs := by
  induction cs with
  | nil => rfl
  | cons c rest ih =>
    rw [seqWords_cons, totalWords_cons, List.length_append, ih]

theorem rspq_write_seq_spec (cs : List RspqCmd) :
    ∀ s : RspqState, s.cur + totalWords cs ≤ s.sentinel →
      (rspq_write_seq s cs).buf = s.buf ∧
      (rspq_write_seq s cs).cur = s.cur + totalWords cs ∧
      (rspq_write_seq s cs).sentinel = s.sentinel ∧
      (rspq_write_seq s cs).switches = s.switches ∧
      (∀ b j, (rspq_write_seq s cs).mem b j =
        if b = s.buf ∧ s.cur ≤ j ∧ j < s.cur + totalWords cs
        then (seqWords cs).getD (j - s.cur) 0
        else s.mem b j) := by
  induction cs with
  | nil =>
    intro s hfit
    refine ⟨rfl, by simp [rspq_write_seq, totalWords], rfl, rfl, ?_⟩
    intro b j
    have hno : ¬ (b = s.buf ∧ s.cur ≤ j ∧ j < s.cur + totalWords ([] : List RspqCmd)) := by
      intro hcon
      simp [totalWords] at hcon
      omega
    rw [if_neg hno]
    rfl
  | cons c rest ih =>
    intro s hfit
    have hlen : totalWords (c :: rest) = (cmdWords c).length + totalWords rest :=
      totalWords_cons c rest
    have h1 : s.cur + (cmdWords c).length ≤ s.sentinel := by omega
    obtain ⟨hb, hc, hs, hw, hm⟩ := rspq_write_no_switch s c h1
    have hfit1 : (rspq_write s c).cur + totalWords rest ≤ (rspq_write s c).sentinel := by
      rw [hc, hs]; omega
    obtain ⟨ib, ic, is2, iw, im⟩ := ih (rspq_write s c) hfit1
    have hrun : rspq_write_seq s (c :: rest) = rspq_write_seq (rspq_write s c) rest := rfl
    rw [hrun]
    refine ⟨by rw [ib, hb], by rw [ic, hc, hlen]; omega, by rw [is2, hs],
      by rw [iw, hw], ?_⟩
    intro b j
    rw [im b j, hc, hb]
    by_cases hbb : b = s.buf
    · subst hbb
      by_cases hj2 : s.cur + (cmdWords c).length ≤ j ∧
          j < s.cur + (cmdWords c).length + totalWords rest
      · rw [if_pos ⟨rfl, hj2.1, hj2.2⟩,
          if_pos ⟨rfl, by omega, by rw [hlen]; omega⟩]
        rw [seqWords_cons, List.getD_append_right _ _ _ _ (by omega)]
        congr 1
        omega
      · rw [if_neg (by intro hcon; exact hj2 ⟨hcon.2.1, hcon.2.2⟩), hm]
        by_cases hj1 : s.cur ≤ j ∧ j < s.cur + (cmdWords c).length
        · rw [if_pos ⟨rfl, hj1.1, hj1.2⟩,
            if_pos ⟨rfl, hj1.1, by rw [hlen]; omega⟩]
          rw [seqWords_cons, List.getD_append _ _ _ _ (by omega)]
        · rw [if_neg (by intro hcon; exact hj1 ⟨hcon.2.1, hcon.2.2⟩),
            if_neg (by intro hcon; rw [hlen] at hcon; omega)]
    · rw [if_neg (by intro hcon; exact hbb hcon.1), hm,
        if_neg (by intro hcon; exact hbb hcon.1),
        if_neg (by intro hcon; exact hbb hcon.1)]

theorem rspq_write1_header (s : RspqState) (cmd_id arg0 : Nat) (args : List Word) :
    (rspq_write1 s cmd_id arg0 args).mem s.buf s.cur =
      ((cmd_id <<< 24) ||| arg0) % UINT32_MOD := by
  have hne : s.cur ≠ s.cur + 1 + args.length := by omega
  unfold rspq_write1 rspq_write_epilog
  split
  · simp [rspq_next_buffer, updateActive, setWord, hne, applyStores_writeStoreList]
  · simp [updateActive, applyStores_writeStoreList]

theorem rspq_write0_header (s : RspqState) (cmd_id : Nat) :
    (rspq_write0 s cmd_id).mem s.buf s.cur = (cmd_id <<< 24) % UINT32_MOD := by
  have hne : s.cur ≠ s.cur + 1 := by omega
  unfold rspq_write0 rspq_write_epilog
  split
  · simp [rspq_next_buffer, updateActive, setWord, hne, applyStores]
  · simp [updateActive, setWord, applyStores]

theorem rspq_write_stores (s : RspqState) (c : RspqCmd) (i : Nat)
    (hi : i < (cmdWords c).length) :
    (rspq_write s c).mem s.buf (s.cur + i) = (cmdWords c).getD i 0 := by
  rw [rspq_write_eq]
  unfold rspq_write_epilog
  split
  · simp only [rspq_next_buffer, updateActive]
    simp only [if_true, setWord]
    rw [if_neg (by omega), applyStores_cmdStoreList, if_pos ⟨by omega, by omega⟩]
    congr 1
    omega
  · simp only [updateActive]
    simp only [if_true]
    rw [applyStores_cmdStoreList, if_pos ⟨by omega, by omega⟩]
    congr 1
    omega

theorem spStep_count_le (s : SpState) (e : SpEvent) :
    s.count ≤ (spStep s e).count := by
  cases e with
  | create => simp [spStep]
  | consume =>
    simp only [spStep]
    split <;> simp

theorem spStep_done_le (s : SpState) (e : SpEvent) :
    s.done ≤ (spStep s e).done := by
  cases e with
  | create => simp [spStep]
  | consume =>
    simp only [spStep]
    split <;> simp

theorem spRun_count_le (evs : List SpEvent) :
    ∀ s : SpState, s.count ≤ (spRun s evs).count := by
  induction evs with
  | nil => intro s; exact Nat.le_refl _
  | cons e rest ih =>
    intro s
    exact Nat.le_trans (spStep_count_le s e) (ih (spStep s e))

theorem spRun_done_le (evs : List SpEvent) :
    ∀ s : SpState, s.done ≤ (spRun s evs).done := by
  induction evs with
  | nil => intro s; exact Nat.le_refl _
  | cons e rest ih =>
    intro s
    exact Nat.le_trans (spStep_done_le s e) (ih (spStep s e))

theorem hpStep_resolved (x z : Nat) (s : HpState) (e : HpEvent)
    (h : HpResolved x z s) : HpResolved x z (hpStep s e) := by
  obtain ⟨l1, l2, hobs, hx⟩ := h
  cases e with
  | enqNormal c => exact ⟨l1, l2, hobs, hx⟩
  | enqHigh c => exact ⟨l1, l2, hobs, hx⟩
  | consume =>
    cases hhq : s.hq with
    | cons w rest =>
      refine ⟨l1, l2 ++ [w], ?_, hx⟩
      simp [hpStep, hhq, hobs]
    | nil =>
      cases hnq : s.nq with
      | cons w rest =>
        refine ⟨l1, l2 ++ [w], ?_, hx⟩
        simp [hpStep, hhq, hnq, hobs]
      | nil =>
        exact ⟨l1, l2, by simp [hpStep, hhq, hnq, hobs], hx⟩

theorem hpStep_inv (x z : Nat) (s : HpState) (e : HpEvent)
    (he : e ≠ HpEvent.enqHigh z) (h : HpInv x z s) :
    HpInv x z (hpStep s e) ∨ HpResolved x z (hpStep s e) := by
  obtain ⟨hzo, hzh, hzn, hx⟩ := h
  cases e with
  | enqNormal c =>
    left
    exact ⟨hzo, hzh, by simp [hpStep, hzn], by simpa [hpStep] using hx⟩
  | enqHigh c =>
    left
    have hcz : c ≠ z := by intro hcz; exact he (by rw [hcz])
    refine ⟨hzo, ?_, hzn, ?_⟩
    · simp [hpStep]
      exact ⟨hzh, Ne.symm hcz⟩
    · rcases hx with hx | hx
      · exact Or.inl (by simp [hpStep, hx])
      · exact Or.inr (by simpa [hpStep] using hx)
  | consume =>
    cases hhq : s.hq with
    | cons w rest =>
      left
      have hwz : w ≠ z := by
        intro hwz
        exact hzh (by rw [hhq, hwz]; exact List.mem_cons_self z rest)
      refine ⟨?_, ?_, ?_, ?_⟩
      · simp [hpStep, hhq]
        exact ⟨hzo, Ne.symm hwz⟩
      · simp [hpStep, hhq]
        intro hcon
        exact hzh (by rw [hhq]; exact List.mem_cons_of_mem w hcon)
      · simpa [hpStep, hhq] using hzn
      · rcases hx with hx | hx
        · rw [hhq] at hx
          rcases List.mem_cons.mp hx with hx | hx
          · right
            simp [hpStep, hhq, hx]
          · left
            simpa [hpStep, hhq] using hx
        · right
          simp [hpStep, hhq, hx]
    | nil =>
      have hxo : x ∈ s.obs := by
        rcases hx with hx | hx
        · rw [hhq] at hx; simp at hx
        · exact hx
      cases hnq : s.nq with
      | nil =>
        left
        exact ⟨by simpa [hpStep, hhq, hnq] using hzo,
          by simp [hpStep, hhq, hnq],
          by rw [hnq] at hzn; simp at hzn,
          Or.inr (by simpa [hpStep, hhq, hnq] using hxo)⟩
      | cons w rest =>
        by_cases hwz : w = z
        · right
          refine ⟨s.obs, [], ?_, hxo⟩
          simp [hpStep, hhq, hnq, hwz]
        · left
          refine ⟨?_, ?_, ?_, ?_⟩
          · simp [hpStep, hhq, hnq]
            exact ⟨hzo, fun hcon => hwz hcon.symm⟩
          · simp [hpStep, hhq, hnq]
          · have : z ∈ w :: rest := by rw [← hnq]; exact hzn
            rcases List.mem_cons.mp this with hzw | hzr
            · exact absurd hzw.symm hwz
            · simpa [hpStep, hhq, hnq] using hzr
          · exact Or.inr (by simp [hpStep, hhq, hnq, hxo])

theorem hpRun_inv (x z : Nat) (evs : List HpEvent) :
    ∀ s : HpState, (∀ e ∈ evs, e ≠ HpEvent.enqHigh z) → HpInv x z s →
      HpInv x z (hpRun s evs) ∨ HpResolved x z (hpRun s evs) := by
  induction evs with
  | nil => intro s _ h; exact Or.inl h
  | cons e rest ih =>
    intro s hevs h
    have he : e ≠ HpEvent.enqHigh z := hevs e (List.mem_cons_self e rest)
    have hrest : ∀ e' ∈ rest, e' ≠ HpEvent.enqHigh z :=
      fun e' he' => hevs e' (List.mem_cons_of_mem e he')
    rcases hpStep_inv x z s e he h with h1 | h1
    · exact ih (hpStep s e) hrest h1
    · right
      have : ∀ (t : HpState) (l : List HpEvent), HpResolved x z t →
          HpResolved x z (hpRun t l) := by
        intro t l
        induction l generalizing t with
        | nil => exact id
        | cons e' rest' ih' =>
          intro ht
          exact ih' (hpStep t e') (hpStep_resolved x z t e' ht)
      exact this (hpStep s e) rest h1

/-- Claim C1: for every sequence of rspq_write invocations whose commands
have at most RSPQ_MAX_COMMAND_SIZE words each and which fit before the
sentinel, the words stored into the active buffer are exactly the commands'
words, contiguous and in invocation order, and the cursor advances by
exactly the total number of words written (each invocation with n payload
words contributing n+1 words); memory below the starting cursor is
untouched, so the consumer observes exactly the published word sequence. -/
theorem claim_C1_roundtrip_fidelity (s : RspqState) (cs : List RspqCmd)
    (_hmax : ∀ c ∈ cs, (cmdWords c).length ≤ RSPQ_MAX_COMMAND_SIZE)
    (hfit : s.cur + totalWords cs ≤ s.sentinel) :
    (rspq_write_seq s cs).buf = s.buf ∧
    (rspq_write_seq s cs).cur = s.cur + totalWords cs ∧
    (∀ i, i < totalWords cs →
      (rspq_write_seq s cs).mem s.buf (s.cur + i) = (seqWords cs).getD i 0) ∧
    (∀ j, j < s.cur → (rspq_write_seq s cs).mem s.buf j = s.mem s.buf j) := by
  obtain ⟨hb, hc, hs, hw, hm⟩ := rspq_write_seq_spec cs s hfit
  refine ⟨hb, hc, ?_, ?_⟩
  · intro i hi
    rw [hm s.buf (s.cur + i), if_pos ⟨rfl, by omega, by omega⟩]
    congr 1
    omega
  · intro j hj
    rw [hm s.buf j, if_neg (by rintro ⟨-, h1, -⟩; omega)]

/-- Witness for C1 at a concrete state and command list. -/
theorem claim_C1_witness :
    (rspq_write_seq sampleState [sampleCmd]).buf = sampleState.buf ∧
    (rspq_write_seq sampleState [sampleCmd]).cur =
      sampleState.cur + totalWords [sampleCmd] ∧
    (∀ i, i < totalWords [sampleCmd] →
      (rspq_write_seq sampleState [sampleCmd]).mem sampleState.buf
        (sampleState.cur + i) = (seqWords [sampleCmd]).getD i 0) ∧
    (∀ j, j < sampleState.cur →
      (rspq_write_seq sampleState [sampleCmd]).mem sampleState.buf j =
        sampleState.mem sampleState.buf j) :=
  claim_C1_roundtrip_fidelity sampleState [sampleCmd] (by decide) (by decide)

/-- Claim C2: the first stored word of rspq_write(cmd_id, arg0, ...) equals
(cmd_id << 24) | arg0 when cmd_id is 8-bit and arg0 fits in 24 bits; its
bits 31-28 are the overlay id (upper nibble of cmd_id), bits 27-24 the
command index (lower nibble), bits 23-0 the payload argument; and
rspq_write(cmd_id) with no payload stores cmd_id << 24 as its word. -/
theorem claim_C2_command_encoding (s : RspqState) (cmd_id arg0 : Nat)
    (args : List Word) (hid : cmd_id < 256) (harg : arg0 < 2 ^ 24) :
    (rspq_write1 s cmd_id arg0 args).mem s.buf s.cur = ((cmd_id <<< 24) ||| arg0) ∧
    (rspq_write1 s cmd_id arg0 args).mem s.buf s.cur = cmd_id * 2 ^ 24 + arg0 ∧
    (rspq_write1 s cmd_id arg0 args).mem s.buf s.cur / 2 ^ 28 = cmd_id / 16 ∧
    (rspq_write1 s cmd_id arg0 args).mem s.buf s.cur / 2 ^ 24 % 16 = cmd_id % 16 ∧
    (rspq_write1 s cmd_id arg0 args).mem s.buf s.cur % 2 ^ 24 = arg0 ∧
    (rspq_write0 s cmd_id).mem s.buf s.cur = cmd_id <<< 24 := by
  have hval : (cmd_id <<< 24) ||| arg0 = cmd_id * 2 ^ 24 + arg0 := by
    rw [Nat.shiftLeft_eq, Nat.mul_comm]
    exact (Nat.mul_add_lt_is_or harg cmd_id).symm
  have hlt : cmd_id * 2 ^ 24 + arg0 < UINT32_MOD := by
    have : UINT32_MOD = 2 ^ 32 := rfl
    rw [this]
    have h24 : (2 : Nat) ^ 24 = 16777216 := by norm_num
    have h32 : (2 : Nat) ^ 32 = 4294967296 := by norm_num
    rw [h24] at harg ⊢
    rw [h32]
    omega
  have hm : (rspq_write1 s cmd_id arg0 args).mem s.buf s.cur =
      cmd_id * 2 ^ 24 + arg0 := by
    rw [rspq_write1_header, hval, Nat.mod_eq_of_lt hlt]
  have h24 : (2 : Nat) ^ 24 = 16777216 := by norm_num
  have h28 : (2 : Nat) ^ 28 = 268435456 := by norm_num
  refine ⟨by rw [hm, hval], hm, ?_, ?_, ?_, ?_⟩
  · rw [hm, h24, h28]
    rw [h24] at harg
    omega
  · rw [hm, h24]
    rw [h24] at harg
    omega
  · rw [hm, h24]
    rw [h24] at harg
    omega
  · rw [rspq_write0_header, Nat.mod_eq_of_lt]
    rw [Nat.shiftLeft_eq]
    have : UINT32_MOD = 4294967296 := by norm_num [UINT32_MOD]
    rw [this, h24]
    omega

/-- Witness for C2 at a concrete state and arguments. -/
theorem claim_C2_witness :
    (rspq_write1 sampleState 58 7 [5]).mem sampleState.buf sampleState.cur =
      ((58 <<< 24) ||| 7) ∧
    (rspq_write1 sampleState 58 7 [5]).mem sampleState.buf sampleState.cur =
      58 * 2 ^ 24 + 7 ∧
    (rspq_write1 sampleState 58 7 [5]).mem sampleState.buf sampleState.cur / 2 ^ 28 =
      58 / 16 ∧
    (rspq_write1 sampleState 58 7 [5]).mem sampleState.buf sampleState.cur / 2 ^ 24 % 16 =
      58 % 16 ∧
    (rspq_write1 sampleState 58 7 [5]).mem sampleState.buf sampleState.cur % 2 ^ 24 = 7 ∧
    (rspq_write0 sampleState 58).mem sampleState.buf sampleState.cur = 58 <<< 24 :=
  claim_C2_command_encoding sampleState 58 7 [5] (by decide) (by decide)

/-- Claim C3: after every command write the epilog validates the cursor
against the sentinel: when the post-write cursor has passed the sentinel the
writer switches to the alternate buffer, appending a jump control command
redirecting the consumer there; otherwise the active buffer and the cursor
assignment are left unchanged. -/
theorem claim_C3_buffer_switch (s : RspqState) (c : RspqCmd) :
    (s.sentinel < s.cur + (cmdWords c).length →
      (rspq_write s c).buf = !s.buf ∧
      (rspq_write s c).cur = 0 ∧
      (rspq_write s c).mem s.buf (s.cur + (cmdWords c).length) =
        rspq_jump_word (!s.buf) % UINT32_MOD ∧
      (rspq_write s c).switches = s.switches + 1) ∧
    (s.cur + (cmdWords c).length ≤ s.sentinel →
      (rspq_write s c).buf = s.buf ∧
      (rspq_write s c).cur = s.cur + (cmdWords c).length ∧
      (rspq_write s c).switches = s.switches) := by
  constructor
  · intro h
    obtain ⟨h1, h2, h3, h4, h5, h6⟩ := rspq_write_switch s c h
    exact ⟨h1, h2, h5, h4⟩
  · intro h
    obtain ⟨h1, h2, h3, h4, h5⟩ := rspq_write_no_switch s c h
    exact ⟨h1, h2, h4⟩

/-- Witness for C3: a write past the sentinel at a concrete state switches
buffers and appends the jump command. -/
theorem claim_C3_witness :
    (rspq_write switchState sampleCmd).buf = !switchState.buf ∧
    (rspq_write switchState sampleCmd).cur = 0 ∧
    (rspq_write switchState sampleCmd).mem switchState.buf
      (switchState.cur + (cmdWords sampleCmd).length) =
      rspq_jump_word (!switchState.buf) % UINT32_MOD ∧
    (rspq_write switchState sampleCmd).switches = switchState.switches + 1 :=
  (claim_C3_buffer_switch switchState sampleCmd).1 (by decide)

/-- Claim C4: syncpoint handles from successive creations are strictly
increasing (across any intervening protocol events), every valid handle is
positive (0 is never returned), and for every created syncpoint the check is
false at every point before the consumer has executed the corresponding
marker and true at every point thereafter, permanently (the acknowledged
counter only grows). -/
theorem claim_C4_syncpoint_monotone (s : SpState) (evs : List SpEvent)
    (hinv : s.done ≤ s.count) :
    0 < (rspq_syncpoint s).1 ∧
    (rspq_syncpoint s).1 <
      (rspq_syncpoint (spRun (rspq_syncpoint s).2 evs)).1 ∧
    rspq_check_syncpoint (rspq_syncpoint s).2 (rspq_syncpoint s).1 = false ∧
    (∀ t : SpState, t.done < (rspq_syncpoint s).1 →
      rspq_check_syncpoint t (rspq_syncpoint s).1 = false) ∧
    (∀ (t : SpState) (evs2 : List SpEvent),
      rspq_check_syncpoint t (rspq_syncpoint s).1 = true →
      rspq_check_syncpoint (spRun t evs2) (rspq_syncpoint s).1 = true) := by
  refine ⟨Nat.succ_pos _, ?_, ?_, ?_, ?_⟩
  · have h := spRun_count_le evs (rspq_syncpoint s).2
    simp only [rspq_syncpoint] at h ⊢
    omega
  · simp only [rspq_syncpoint, rspq_check_syncpoint]
    simp only [decide_eq_false_iff_not]
    omega
  · intro t ht
    simp only [rspq_check_syncpoint, decide_eq_false_iff_not]
    omega
  · intro t evs2 ht
    have h := spRun_done_le evs2 t
    simp only [rspq_check_syncpoint, decide_eq_true_eq] at ht ⊢
    omega

/-- Witness for C4 at a concrete initial syncpoint state. -/
theorem claim_C4_witness :
    0 < (rspq_syncpoint sampleSp).1 ∧
    (rspq_syncpoint sampleSp).1 <
      (rspq_syncpoint (spRun (rspq_syncpoint sampleSp).2
        [SpEvent.create, SpEvent.consume])).1 ∧
    rspq_check_syncpoint (rspq_syncpoint sampleSp).2 (rspq_syncpoint sampleSp).1 =
      false ∧
    (∀ t : SpState, t.done < (rspq_syncpoint sampleSp).1 →
      rspq_check_syncpoint t (rspq_syncpoint sampleSp).1 = false) ∧
    (∀ (t : SpState) (evs2 : List SpEvent),
      rspq_check_syncpoint t (rspq_syncpoint sampleSp).1 = true →
      rspq_check_syncpoint (spRun t evs2) (rspq_syncpoint sampleSp).1 = true) :=
  claim_C4_syncpoint_monotone sampleSp [SpEvent.create, SpEvent.consume] (by decide)

/-- Claim C5: commands written into a high-priority segment are observed by
the consumer before any normal-queue command that was still pending when the
segment was open: whenever such a normal command z appears in the
observation sequence, the high-priority command x appears strictly before
it, for every possible interleaving of producer and consumer events (none of
which re-publishes z on the high-priority stream). -/
theorem claim_C5_highpri_first (x z : Nat) (s : HpState) (evs : List HpEvent)
    (hx : x ∈ s.hq) (hz : z ∈ s.nq) (hzobs : z ∉ s.obs) (hzhq : z ∉ s.hq)
    (hevs : ∀ e ∈ evs, e ≠ HpEvent.enqHigh z)
    (hdone : z ∈ (hpRun s evs).obs) :
    ∃ l1 l2, (hpRun s evs).obs = l1 ++ z :: l2 ∧ x ∈ l1 := by
  rcases hpRun_inv x z evs s hevs ⟨hzobs, hzhq, hz, Or.inl hx⟩ with h | h
  · exact absurd hdone h.1
  · exact h

/-- Witness for C5: a concrete two-queue state where the consumer drains the
high-priority segment before the pending normal command. -/
theorem claim_C5_witness :
    ∃ l1 l2,
      (hpRun sampleHp [HpEvent.consume, HpEvent.consume, HpEvent.consume]).obs =
        l1 ++ 20 :: l2 ∧ 10 ∈ l1 :=
  claim_C5_highpri_first 10 20 sampleHp
    [HpEvent.consume, HpEvent.consume, HpEvent.consume]
    (by decide) (by decide) (by decide) (by decide) (by decide) (by decide)

/-- Claim C6: while a block is being recorded, every write is redirected
into the block's private buffer (the live ring buffer is untouched) and
rspq_flush is a no-op leaving the whole engine state unchanged. -/
theorem claim_C6_block_recording (e : EngineState) (b : List Word) (c : RspqCmd)
    (h : e.block_buf = some b) :
    rspq_flush e = e ∧
    (engine_write e c).rb = e.rb ∧
    (engine_write e c).block_buf = some (b ++ cmdWords c) ∧
    (engine_write e c).wake = e.wake := by
  refine ⟨?_, ?_, ?_, ?_⟩ <;> simp [rspq_flush, engine_write, h]

/-- Witness for C6 at a concrete engine state recording a block. -/
theorem claim_C6_witness :
    rspq_flush sampleEngine = sampleEngine ∧
    (engine_write sampleEngine sampleCmd).rb = sampleEngine.rb ∧
    (engine_write sampleEngine sampleCmd).block_buf =
      some ([1, 2] ++ cmdWords sampleCmd) ∧
    (engine_write sampleEngine sampleCmd).wake = sampleEngine.wake :=
  claim_C6_block_recording sampleEngine [1, 2] sampleCmd (by decide)

/-- Claim C7: rspq_wait_syncpoint on an already-reached syncpoint returns
immediately (zero blocking waits, state unchanged, for every wake schedule),
and rspq_check_syncpoint on a not-yet-reached syncpoint returns false (it
never blocks: it is a total comparison). -/
theorem claim_C7_wait_nonblocking (s : SpState) (id : Nat)
    (wakes : List (List SpEvent)) (h : rspq_check_syncpoint s id = true) :
    rspq_wait_syncpoint s id wakes = some (0, s) ∧
    (∀ t : SpState, t.done < id → rspq_check_syncpoint t id = false) := by
  constructor
  · cases wakes with
    | nil => simp [rspq_wait_syncpoint, h]
    | cons w ws => simp [rspq_wait_syncpoint, h]
  · intro t ht
    simp only [rspq_check_syncpoint, decide_eq_false_iff_not]
    omega

/-- Witness for C7 at a concrete reached syncpoint. -/
theorem claim_C7_witness :
    rspq_wait_syncpoint { count := 2, done := 1 } 1 [[SpEvent.consume]] =
      some (0, { count := 2, done := 1 }) ∧
    (∀ t : SpState, t.done < 1 → rspq_check_syncpoint t 1 = false) :=
  claim_C7_wait_nonblocking { count := 2, done := 1 } 1 [[SpEvent.consume]]
    (by decide)

theorem writeArgStores_getD (args : List Word) :
    ∀ (ptr i : Nat), i < args.length →
      (writeArgStores ptr args).getD i (0, 0) = (ptr + i, args.getD i 0) := by
  induction args with
  | nil => intro ptr i hi; simp at hi
  | cons a rest ih =>
    intro ptr i hi
    cases i with
    | zero => simp [writeArgStores]
    | succ k =>
      simp only [writeArgStores, List.getD_cons_succ]
      rw [ih (ptr + 1) k (by simpa using hi)]
      have : ptr + 1 + k = ptr + (k + 1) := by omega
      rw [this]

theorem writeArgStores_take (args : List Word) :
    ∀ (ptr k : Nat),
      (writeArgStores ptr args).take k = writeArgStores ptr (args.take k) := by
  induction args with
  | nil => intro ptr k; simp [writeArgStores]
  | cons a rest ih =>
    intro ptr k
    cases k with
    | zero => simp [writeArgStores]
    | succ n =>
      simp only [writeArgStores, List.take_succ_cons]
      rw [ih (ptr + 1) n]

/-- Claim C8: the maximum size of a single command is 16 32-bit words
(RSPQ_MAX_COMMAND_SIZE = 16); every dispatchable command consists of at
least one word (the header); and the writer performs no runtime size check:
all of a command's words are stored unconditionally, even for commands
exceeding the maximum (such an overflow is a caller contract violation, not
a detected error). -/
theorem claim_C8_max_command_size :
    RSPQ_MAX_COMMAND_SIZE = 16 ∧
    (∀ c : RspqCmd, 1 ≤ (cmdWords c).length ∧
      (cmdWords c).length = max 1 c.payload.length) ∧
    (∀ (s : RspqState) (c : RspqCmd) (i : Nat), i < (cmdWords c).length →
      (rspq_write s c).mem s.buf (s.cur + i) = (cmdWords c).getD i 0) := by
  refine ⟨rfl, ?_, ?_⟩
  · intro c
    rw [cmdWords_length]
    exact ⟨Nat.le_max_left 1 _, rfl⟩
  · intro s c i hi
    exact rspq_write_stores s c i hi

/-- Witness for C8: a command larger than RSPQ_MAX_COMMAND_SIZE is still
stored unconditionally at a concrete state. -/
theorem claim_C8_witness :
    (rspq_write sampleState
        { cmd_id := 1, payload := List.replicate 20 7 }).mem sampleState.buf
      (sampleState.cur + 19) =
      (cmdWords { cmd_id := 1, payload := List.replicate 20 7 }).getD 19 0 :=
  claim_C8_max_command_size.2.2 sampleState
    { cmd_id := 1, payload := List.replicate 20 7 } 19 (by decide)

/-- Claim C9: the store trace of a payload-carrying write stores the n
payload words at cursor offsets 1..n first (trace positions 0..n-1, in
order) and the header word at offset 0 last; applying any proper prefix of
the trace leaves the header slot unchanged, so at no intermediate point is
the header present without its complete payload. -/
theorem claim_C9_payload_before_header (m : Nat → Word) (cur cmd_id arg0 : Nat)
    (args : List Word) (k : Nat) (hk : k ≤ args.length) :
    (writeStoreList cur cmd_id arg0 args).length = args.length + 1 ∧
    (∀ i, i < args.length →
      (writeStoreList cur cmd_id arg0 args).getD i (0, 0) =
        (cur + 1 + i, args.getD i 0)) ∧
    (writeStoreList cur cmd_id arg0 args).getD args.length (0, 0) =
      (cur, (cmd_id <<< 24) ||| arg0) ∧
    applyStores m ((writeStoreList cur cmd_id arg0 args).take k) cur = m cur := by
  have hlen : (writeArgStores (cur + 1) args).length = args.length :=
    writeArgStores_length args (cur + 1)
  refine ⟨?_, ?_, ?_, ?_⟩
  · simp [writeStoreList, hlen]
  · intro i hi
    rw [writeStoreList, List.getD_append _ _ _ _ (by omega)]
    exact writeArgStores_getD args (cur + 1) i hi
  · rw [writeStoreList, List.getD_append_right _ _ _ _ (by omega)]
    simp [hlen]
  · rw [writeStoreList, List.take_append_of_le_length (by omega),
      writeArgStores_take]
    rw [applyStores_writeArgStores]
    rw [if_neg (by omega)]

/-- Witness for C9 at a concrete store trace and prefix length. -/
theorem claim_C9_witness :
    (writeStoreList 4 58 7 [5, 9]).length = 2 + 1 ∧
    (∀ i, i < ([5, 9] : List Word).length →
      (writeStoreList 4 58 7 [5, 9]).getD i (0, 0) =
        (4 + 1 + i, ([5, 9] : List Word).getD i 0)) ∧
    (writeStoreList 4 58 7 [5, 9]).getD ([5, 9] : List Word).length (0, 0) =
      (4, (58 <<< 24) ||| 7) ∧
    applyStores memZeroLine ((writeStoreList 4 58 7 [5, 9]).take 2) 4 =
      memZeroLine 4 :=
  claim_C9_payload_before_header memZeroLine 4 58 7 [5, 9] 2 (by decide)

/-- Claim C10: the bounds check runs only after the entire command has been
stored: the buffer switch happens at most once per command and exactly when
the post-write cursor exceeds the sentinel; the command's stores reach at
most RSPQ_MAX_COMMAND_SIZE words beyond the sentinel, so no store of the
command goes out of bounds provided the sentinel is placed at least
RSPQ_MAX_COMMAND_SIZE words before the end of the active buffer. -/
theorem claim_C10_bounds_check_after (s : RspqState) (c : RspqCmd) (bufEnd : Nat)
    (h1 : s.cur ≤ s.sentinel)
    (h2 : (cmdWords c).length ≤ RSPQ_MAX_COMMAND_SIZE)
    (h3 : s.sentinel + RSPQ_MAX_COMMAND_SIZE ≤ bufEnd) :
    (∀ p ∈ cmdStoreList s.cur c, p.1 < bufEnd) ∧
    (rspq_write s c).switches ≤ s.switches + 1 ∧
    (s.cur + (cmdWords c).length ≤ s.sentinel →
      (rspq_write s c).switches = s.switches) ∧
    (s.sentinel < s.cur + (cmdWords c).length →
      (rspq_write s c).switches = s.switches + 1) := by
  have hmax : RSPQ_MAX_COMMAND_SIZE = 16 := rfl
  rw [hmax] at h2 h3
  refine ⟨?_, ?_, ?_, ?_⟩
  · intro p hp
    have := cmdStoreList_mem_addr s.cur c p hp
    omega
  · by_cases h : s.sentinel < s.cur + (cmdWords c).length
    · rw [(rspq_write_switch s c h).2.2.2.1]
    · rw [(rspq_write_no_switch s c (by omega)).2.2.2.1]
      omega
  · intro h
    exact (rspq_write_no_switch s c h).2.2.2.1
  · intro h
    exact (rspq_write_switch s c h).2.2.2.1

/-- Witness for C10 at a concrete state, command and buffer bound. -/
theorem claim_C10_witness :
    (∀ p ∈ cmdStoreList sampleState.cur sampleCmd, p.1 < 120) ∧
    (rspq_write sampleState sampleCmd).switches ≤ sampleState.switches + 1 ∧
    (sampleState.cur + (cmdWords sampleCmd).length ≤ sampleState.sentinel →
      (rspq_write sampleState sampleCmd).switches = sampleState.switches) ∧
    (sampleState.sentinel < sampleState.cur + (cmdWords sampleCmd).length →
      (rspq_write sampleState sampleCmd).switches = sampleState.switches + 1) :=
  claim_C10_bounds_check_after sampleState sampleCmd 120
    (by decide) (by decide) (by decide)

end Rspq

